import Mathlib

/-!
Verification of the object-store core of `cmd/mygit/main.go`.

The Go source is shallowly embedded over byte lists (`List Nat`, each
element a byte value).  Go strings and `[]byte` values are both byte
sequences, so both are modelled as `List Nat`; ASCII string literals are
injected with `ascii`.  Machine words are `Nat` reduced modulo `2 ^ 32`
where the Go code relies on 32-bit overflow (inside SHA-1).
-/

set_option maxRecDepth 10000

/-- Byte sequence of an ASCII Lean string literal (models a Go string /
`[]byte` constant). -/
def ascii (s : String) : List Nat := s.data.map Char.toNat

/-- Decimal rendering of a natural number, as bytes (models Go `%d`). -/
def decimalBytes (n : Nat) : List Nat := ascii (Nat.repr n)

/-- Truncation to a 32-bit word. -/
def w32 (x : Nat) : Nat := x % 4294967296

/-- 32-bit left rotation (for `x < 2 ^ 32`). -/
def rotl32 (s x : Nat) : Nat := w32 (x <<< s) ||| (x >>> (32 - s))

/-- Big-endian 4-byte rendering of a 32-bit word. -/
def be32 (n : Nat) : List Nat :=
  [n / 16777216 % 256, n / 65536 % 256, n / 256 % 256, n % 256]

/-- Big-endian 8-byte rendering of a 64-bit length field. -/
def be64 (n : Nat) : List Nat :=
  [n / 72057594037927936 % 256, n / 281474976710656 % 256,
   n / 1099511627776 % 256, n / 4294967296 % 256,
   n / 16777216 % 256, n / 65536 % 256, n / 256 % 256, n % 256]

/-- SHA-1 round function (FIPS 180-4), round index `i < 80`. -/
def sha1F (i b c d : Nat) : Nat :=
  if i < 20 then (b &&& c) ||| ((4294967295 ^^^ b) &&& d)
  else if i < 40 then (b ^^^ c) ^^^ d
  else if i < 60 then ((b &&& c) ||| (b &&& d)) ||| (c &&& d)
  else (b ^^^ c) ^^^ d

/-- SHA-1 round constants. -/
def sha1K (i : Nat) : Nat :=
  if i < 20 then 1518500249
  else if i < 40 then 1859775393
  else if i < 60 then 2400959708
  else 3395469782

/-- Big-endian 32-bit words of a byte list (chunk of 64 bytes gives the
16 initial schedule words). -/
def wordsOfBytes : List Nat → List Nat
  | b0 :: b1 :: b2 :: b3 :: rest =>
      (((b0 * 256 + b1) * 256 + b2) * 256 + b3) :: wordsOfBytes rest
  | _ => []

/-- Extend the 16 schedule words to 80 (`n` extension steps). -/
def sha1Schedule : Nat → List Nat → List Nat
  | 0, ws => ws
  | n + 1, ws =>
      sha1Schedule n (ws ++
        [rotl32 1 (((ws.getD (ws.length - 3) 0) ^^^ (ws.getD (ws.length - 8) 0)) ^^^
                   ((ws.getD (ws.length - 14) 0) ^^^ (ws.getD (ws.length - 16) 0)))])

/-- One SHA-1 round, state `(a, b, c, d, e)`. -/
def sha1Round (ws : List Nat) (st : Nat × Nat × Nat × Nat × Nat) (i : Nat) :
    Nat × Nat × Nat × Nat × Nat :=
  match st with
  | (a, b, c, d, e) =>
      (w32 (rotl32 5 a + sha1F i b c d + e + sha1K i + ws.getD i 0),
       a, rotl32 30 b, c, d)

/-- Process one 64-byte chunk. -/
def sha1ProcessChunk (h : Nat × Nat × Nat × Nat × Nat) (chunk : List Nat) :
    Nat × Nat × Nat × Nat × Nat :=
  let ws := sha1Schedule 64 (wordsOfBytes chunk)
  match h, (List.range 80).foldl (sha1Round ws) h with
  | (h0, h1, h2, h3, h4), (a, b, c, d, e) =>
      (w32 (h0 + a), w32 (h1 + b), w32 (h2 + c), w32 (h3 + d), w32 (h4 + e))

/-- Fold over the 64-byte chunks of the padded message (`n` = chunk count). -/
def sha1Chunks : Nat → (Nat × Nat × Nat × Nat × Nat) → List Nat →
    Nat × Nat × Nat × Nat × Nat
  | 0, h, _ => h
  | n + 1, h, msg => sha1Chunks n (sha1ProcessChunk h (msg.take 64)) (msg.drop 64)

/-- SHA-1 padding: `0x80`, zeros to 56 mod 64, then the 64-bit bit length. -/
def sha1Pad (m : List Nat) : List Nat :=
  m ++ [128] ++ List.replicate ((119 - m.length % 64) % 64) 0 ++ be64 (8 * m.length)

/-- SHA-1 digest (20 bytes) of a byte sequence; models Go `crypto/sha1.Sum`. -/
def sha1 (m : List Nat) : List Nat :=
  let p := sha1Pad m
  match sha1Chunks (p.length / 64) (1732584193, 4023233417, 2562383102, 271733878, 3285377520) p with
  | (h0, h1, h2, h3, h4) => be32 h0 ++ be32 h1 ++ be32 h2 ++ be32 h3 ++ be32 h4

/-! ## Compressor

`compressContent` wraps Go's `compress/zlib` (`zlib.NewWriter` /
`zlib.NewReader`), which is standard-library code, not part of this
repository.  Modelled from the spec: §4.2 requires only a deterministic
lossless compressor whose `decompress` is the exact inverse of
`compress`; we model the zlib layer as a zlib-shaped codec — a 2-byte
stream header, DEFLATE "stored" (uncompressed) blocks of at most 65535
bytes each, and a trailing Adler-32 checksum of the uncompressed data. -/

/-- Adler-32 checksum of a byte sequence (the zlib trailer). -/
def adler32 (m : List Nat) : Nat :=
  let st := m.foldl (fun (ab : Nat × Nat) b =>
    ((ab.1 + b % 256) % 65521, (ab.2 + (ab.1 + b % 256)) % 65521)) (1, 0)
  st.2 * 65536 + st.1

/-- Header of a DEFLATE stored block: final flag, 16-bit little-endian
length, and its ones-complement. -/
def storedBlockHeader (final : Bool) (len : Nat) : List Nat :=
  [if final then 1 else 0, len % 256, len / 256 % 256,
   255 - len % 256, 255 - len / 256 % 256]

/-- Emit stored blocks for the content; `fuel` bounds the recursion and is
instantiated with the content length (each step consumes 65535 bytes). -/
def deflateGo : Nat → List Nat → List Nat
  | 0, l => storedBlockHeader true l.length ++ l
  | n + 1, l =>
      if l.length ≤ 65535 then storedBlockHeader true l.length ++ l
      else storedBlockHeader false 65535 ++ l.take 65535 ++ deflateGo n (l.drop 65535)

/-- Compression applied to every stored object (models `compressContent`,
with the zlib layer modelled from the spec as stored blocks). -/
def compressContent (content : List Nat) : List Nat :=
  [120, 1] ++ deflateGo content.length content ++ be32 (adler32 content)

/-- Parse stored blocks until the final one; returns the decompressed data
and the remaining (trailer) bytes, or `none` on a malformed stream.
`fuel` bounds the number of blocks parsed. -/
def inflateGo : Nat → List Nat → Option (List Nat × List Nat)
  | fuel + 1, bf :: llo :: lhi :: nlo :: nhi :: rest =>
      if nlo = 255 - llo ∧ nhi = 255 - lhi then
        if rest.length < llo + 256 * lhi then none
        else
          if bf = 1 then
            some (rest.take (llo + 256 * lhi), rest.drop (llo + 256 * lhi))
          else
            (match inflateGo fuel (rest.drop (llo + 256 * lhi)) with
             | some (d, r) => some (rest.take (llo + 256 * lhi) ++ d, r)
             | none => none)
      else none
  | _, _ => none

/-- Decompression of a stored object (models the zlib reader used by
`readAndDecompressFile`); fails on a malformed stream. -/
def decompress (l : List Nat) : Option (List Nat) :=
  match l with
  | 120 :: 1 :: rest =>
      match inflateGo rest.length rest with
      | some (data, trailer) =>
          if trailer = be32 (adler32 data) then some data else none
      | none => none
  | _ => none

/-! ## Object store

The store maps on-disk paths to file contents; `writeLog` records, in
order, the paths passed to `os.WriteFile` (the write events), so that
"the write was performed" is observable in the model. -/

/-- The persistent state touched by the program, plus the write-event log. -/
structure Store where
  files : List (String × List Nat)
  writeLog : List String
  deriving DecidableEq

/-- The empty object store (state after `init` as far as objects go). -/
def store0 : Store := ⟨[], []⟩

/-- Models `os.WriteFile`: create or overwrite, unconditionally. -/
def storeSet (p : String) (v : List Nat) (fs : List (String × List Nat)) :
    List (String × List Nat) :=
  (p, v) :: fs.eraseP (fun e => e.1 == p)

/-- Read a file's bytes, if present. -/
def storeGet (p : String) (fs : List (String × List Nat)) : Option (List Nat) :=
  (fs.find? (fun e => e.1 == p)).map (fun e => e.2)

/-- Lower-case hex digit character of a nibble. -/
def hexDigitChar (n : Nat) : Char :=
  if n < 10 then Char.ofNat (48 + n) else Char.ofNat (87 + n)

/-- Hex rendering of a byte list (models `hex.EncodeToString`). -/
def hexStr (bs : List Nat) : String :=
  String.mk (bs.flatMap (fun b => [hexDigitChar (b / 16 % 16), hexDigitChar (b % 16)]))

/-- Storage path of an object id: `.git/objects/<first 2 hex>/<rest>`
(models the path construction in `writeObject`). -/
def objectPath (hash : List Nat) : String :=
  ".git/objects/" ++ String.mk ((hexStr hash).data.take 2) ++ "/" ++
    String.mk ((hexStr hash).data.drop 2)

/-- Embeds `writeObject`: derive the path from the hash and write unconditionally
(the Go code performs `os.MkdirAll` then `os.WriteFile` with no existence
check). -/
def writeObject (hash : List Nat) (v : List Nat) (s : Store) : Store :=
  ⟨storeSet (objectPath hash) v s.files, s.writeLog ++ [objectPath hash]⟩

/-- Embeds `createObject`: build the payload `"<kind> <len>\x00<content>"`, hash
it, compress it, store it, return the 20-byte digest. -/
def createObject (ty : String) (content : List Nat) (s : Store) :
    List Nat × Store :=
  let payload := ascii ty ++ [32] ++ decimalBytes content.length ++ [0] ++ content
  (sha1 payload, writeObject (sha1 payload) (compressContent payload) s)

/-! ## Tree builder

The filesystem seen by `createTreeObjects`: a directory entry is a name
(byte sequence) paired with a node; `none` for a file's content or a
directory's listing models an unreadable file or directory (the I/O
error case).  `os.ReadDir` is Go standard library and documented to
return entries sorted by filename; the raw listing kept in the model is
the order in which the OS presents children, and `readDirSort` models
the sorting `os.ReadDir` performs before returning. -/

inductive FSNode where
  | file (content : Option (List Nat))
  | dir (listing : Option (List (List Nat × FSNode)))

/-- A recorded tree entry: mode digits, entry name, child digest
(models the Go `HashedEntry` struct). -/
structure HashedEntry where
  mode : List Nat
  name : List Nat
  hash : List Nat
  deriving DecidableEq

/-- Byte-wise lexicographic strict order (Go string `<`). -/
def lexLt : List Nat → List Nat → Bool
  | [], [] => false
  | [], _ :: _ => true
  | _ :: _, [] => false
  | a :: as, b :: bs => a < b || (a == b && lexLt as bs)

/-- ASCII lower-casing of one byte (`strings.ToLower` restricted to the
ASCII names this model covers). -/
def toLowerByte (b : Nat) : Nat := if 65 ≤ b ∧ b ≤ 90 then b + 32 else b

/-- "Not greater" under byte-wise name order — the sortedness relation of
the listing `os.ReadDir` returns. -/
def leName (a b : List Nat × FSNode) : Bool := !lexLt b.1 a.1

/-- "Not greater" under the comparator at main.go:117-119:
`strings.ToLower(name_i) < strings.ToLower(name_j)`. -/
def leLower (a b : List Nat × FSNode) : Bool :=
  !lexLt (b.1.map toLowerByte) (a.1.map toLowerByte)

/-- Insert into a sorted list (stable: keeps an incoming element after
equivalent ones already placed... it goes before the first element it is
`le` to). -/
def insertLe (le : (List Nat × FSNode) → (List Nat × FSNode) → Bool)
    (a : List Nat × FSNode) : List (List Nat × FSNode) → List (List Nat × FSNode)
  | [] => [a]
  | b :: bs => if le a b then a :: b :: bs else b :: insertLe le a bs

/-- Stable insertion sort (deterministic model of the sorting used by
`os.ReadDir` and by `sort.Slice`). -/
def isort (le : (List Nat × FSNode) → (List Nat × FSNode) → Bool) :
    List (List Nat × FSNode) → List (List Nat × FSNode)
  | [] => []
  | a :: as => insertLe le a (isort le as)

/-- The sorted listing `os.ReadDir` returns (sorted by filename). -/
def readDirSort (es : List (List Nat × FSNode)) : List (List Nat × FSNode) :=
  isort leName es

/-- The entry order the tree builder iterates over: the `os.ReadDir`
result re-sorted by the case-insensitive comparator (main.go:117-119). -/
def sortEntries (es : List (List Nat × FSNode)) : List (List Nat × FSNode) :=
  isort leLower (readDirSort es)

/-- Per-entry tree encoding `"<mode> <name>\x00<digest>"`
(the `fmt.Sprintf("%v %v\x00%v", ...)` at main.go:145). -/
def encodeEntry (he : HashedEntry) : List Nat :=
  he.mode ++ [32] ++ he.name ++ [0] ++ he.hash

/-- The loop body of `createTreeObjects`: skip a directory named `.git`,
recurse (via `rec`) into other directories recording mode `40000`, hash
files as blobs recording mode `100644`; an unreadable file calls
`os.Exit(1)`, modelled as the `none` result that the fold then carries
to the end.  The accumulator pairs the store with the recorded entries
(`none` once the process has exited). -/
def treeStep
    (rec : Option (List (List Nat × FSNode)) → Store → Store × Option (List Nat))
    (acc : Store × Option (List HashedEntry)) (e : List Nat × FSNode) :
    Store × Option (List HashedEntry) :=
  match acc with
  | (s, none) => (s, none)
  | (s, some hes) =>
      match e with
      | (name, FSNode.dir sub) =>
          if name = ascii (".git") then (s, some hes)
          else
            (match (rec sub s).2 with
             | some h => ((rec sub s).1, some (hes ++ [⟨ascii ("40000"), name, h⟩]))
             | none => ((rec sub s).1, none))
      | (name, FSNode.file co) =>
          match co with
          | none => (s, none)
          | some c =>
              ((createObject ("blob") c s).2,
               some (hes ++ [⟨ascii ("100644"), name, (createObject ("blob") c s).1⟩]))

/-- Embeds `createTreeObjects`: list the directory (an unreadable directory's
error is discarded — `entries, _ := os.ReadDir(path)` — leaving an empty
listing), sort, process every entry, concatenate the entry encodings and
store them as a `tree` object.  `fuel` bounds the recursion depth; the
result is `none` when the process exited (unreadable file) or fuel ran
out. -/
def createTree : Nat → Option (List (List Nat × FSNode)) → Store →
    Store × Option (List Nat)
  | 0, _, s => (s, none)
  | n + 1, listing, s =>
      match (sortEntries (listing.getD [])).foldl (treeStep (createTree n)) (s, some []) with
      | (s1, none) => (s1, none)
      | (s1, some hes) =>
          match createObject ("tree") (hes.foldl (fun a he => a ++ encodeEntry he) []) s1 with
          | (h, s2) => (s2, some h)

/-! ## Reading objects (`cat-file`) -/

/-- Outcome of running `cat-file`: normal output, `os.Exit(1)` after an
error message, or a runtime panic. -/
inductive CatResult where
  | output (bytes : List Nat)
  | exit1
  | panicked
  deriving DecidableEq

/-- Models `strings.SplitN(content, "\x00", 2)[1]`: the bytes after the first
NUL, or `none` when no NUL exists — in which case `SplitN` returns a
one-element slice and the index `[1]` panics. -/
def splitAfterFirstNul : List Nat → Option (List Nat)
  | [] => none
  | 0 :: rest => some rest
  | _ :: rest => splitAfterFirstNul rest

/-- Storage path from a 40-hex-character id string (`blobSHA[:2]`,
`blobSHA[2:]`). -/
def objectPathOfHex (sha : String) : String :=
  ".git/objects/" ++ String.mk (sha.data.take 2) ++ "/" ++ String.mk (sha.data.drop 2)

/-- Embeds `catFile`: read and decompress the object file (exiting on a missing
file or malformed stream), then print everything after the first NUL —
panicking when there is none. -/
def catFile (sha : String) (s : Store) : CatResult :=
  match storeGet (objectPathOfHex sha) s.files with
  | none => CatResult.exit1
  | some stored =>
      match decompress stored with
      | none => CatResult.exit1
      | some content =>
          match splitAfterFirstNul content with
          | none => CatResult.panicked
          | some rest => CatResult.output rest

/-! ## Commit builder -/

/-- The hard-coded author line (main.go:216). -/
def authorStr : String := "John Doe <john@example.com> 1631234567 -0700"

/-- The hard-coded committer line (main.go:217). -/
def committerStr : String := "Jane Smith <jane@example.com> 1631234789 -0700"

/-- The commit content built at main.go:219-223, by successive
concatenation. -/
def commitContent (t p m : List Nat) : List Nat :=
  ((((ascii ("tree ") ++ t ++ [10]) ++
     (ascii ("parent ") ++ p ++ [10])) ++
     (ascii ("author ") ++ ascii authorStr ++ [10])) ++
     (ascii ("committer ") ++ ascii committerStr ++ [10])) ++
     ([10] ++ m ++ [10])

/-- Embeds `commitTree`: build the content, prepend the `"commit <len>\x00"`
header, hash, compress, store, return the digest. -/
def commitTree (t p m : List Nat) (s : Store) : List Nat × Store :=
  let content := commitContent t p m
  let payload := (ascii ("commit ") ++ decimalBytes content.length ++ [0]) ++ content
  (sha1 payload, writeObject (sha1 payload) (compressContent payload) s)

/-- The ambient process environment a Go program could consult: a clock
and environment variables.  The source never reads either — the author
and committer lines, timestamps included, are the string constants at
main.go:216-217 — so the embedding threads the environment explicitly
only to make that independence stateable. -/
structure Env where
  clock : Nat
  envVars : List (String × String)

/-- Runs `commit-tree` in an ambient environment; the body is exactly
`commitTree`, which consults neither the clock nor the environment. -/
def commitTreeRun (_env : Env) (t p m : List Nat) (s : Store) : List Nat × Store :=
  commitTree t p m s

/-! ## Specification relations used by the theorems -/

/-- Whether an entry is a directory named `.git` (the one child
`createTreeObjects` skips). -/
def isGitDir (e : List Nat × FSNode) : Bool :=
  match e with
  | (name, FSNode.dir _) => name == ascii (".git")
  | _ => false

/-- The children that get recorded as tree entries: all except `.git`
directories. -/
def filterGit (es : List (List Nat × FSNode)) : List (List Nat × FSNode) :=
  es.filter (fun e => !isGitDir e)

/-- How a recorded `HashedEntry` must relate to the child it came from:
a subdirectory gets mode `40000` and the digest of its recursively built
tree (the same digest whatever the store state), a file gets mode
`100644` and the digest of its content stored as a blob. -/
def entryRel (n : Nat) : (List Nat × FSNode) → HashedEntry → Prop
  | (name, FSNode.dir sub), he =>
      he.mode = ascii ("40000") ∧ he.name = name ∧
      ∀ s : Store, (createTree n sub s).2 = some he.hash
  | (name, FSNode.file co), he =>
      he.mode = ascii ("100644") ∧ he.name = name ∧
      ∃ c, co = some c ∧
        he.hash = sha1 (ascii ("blob") ++ [32] ++ decimalBytes c.length ++ [0] ++ c)

/-- Content-addressing invariant of the on-disk store: every object file
holds the compression of some payload and lives at the path derived from
that payload's SHA-1; decompressing it gives that payload back. -/
def StoreInv (s : Store) : Prop :=
  ∀ p v, (p, v) ∈ s.files → ∃ payload,
    v = compressContent payload ∧ p = objectPath (sha1 payload) ∧
    decompress v = some payload

/-- The object-writing commands of the program (arguments already read
from the filesystem or command line). -/
inductive Cmd where
  | hashObjectCmd (content : List Nat)
  | writeTreeCmd (fuel : Nat) (root : Option (List (List Nat × FSNode)))
  | commitTreeCmd (t p m : List Nat)

/-- The store left behind by running one command. -/
def runCmd : Cmd → Store → Store
  | Cmd.hashObjectCmd c, s => (createObject ("blob") c s).2
  | Cmd.writeTreeCmd fuel root, s => (createTree fuel root s).1
  | Cmd.commitTreeCmd t p m, s => (commitTree t p m s).2

/-- Concrete sibling entry used by witnesses: a regular file. -/
def entryFileA : List Nat × FSNode := (ascii ("a.txt"), FSNode.file (some (ascii ("x"))))

/-- Concrete sibling entry used by witnesses: an empty subdirectory. -/
def entrySubDir : List Nat × FSNode := (ascii ("sub"), FSNode.dir (some []))

/-! ## Basic lemmas -/

theorem sha1_length (m : List Nat) : (sha1 m).length = 20 := by
  unfold sha1
  rcases sha1Chunks ((sha1Pad m).length / 64)
      (1732584193, 4023233417, 2562383102, 271733878, 3285377520) (sha1Pad m) with
    ⟨h0, h1, h2, h3, h4⟩
  simp [be32]

theorem storeGet_set_self (p : String) (v : List Nat) (fs : List (String × List Nat)) :
    storeGet p (storeSet p v fs) = some v := by
  simp [storeGet, storeSet]

theorem storeSet_set_self (p : String) (v : List Nat) (fs : List (String × List Nat)) :
    storeSet p v (storeSet p v fs) = storeSet p v fs := by
  simp [storeSet, List.eraseP_cons_of_pos]

/-! ## C1: encoding and hashing of objects -/

/-- Claim C1: for every kind in the closed tag set and every content, the
object builder hashes exactly the payload
`"<kind> <decimal length>\x00<content>"` into a 20-byte SHA-1 digest that
does not depend on anything else (here: on the store state); for the
3-byte blob `"abc"` the payload is `"blob 3\x00abc"` and the digest is
the fixed value `f2ba8f84ab5c1bce84a7b441cb1959cfc7093b7f`. -/
theorem createObject_payload_and_digest (k : String) (c : List Nat) (s t : Store)
    (_hk : k = "blob" ∨ k = "tree" ∨ k = "commit") :
    (createObject k c s).1 = sha1 (ascii k ++ [32] ++ ascii (Nat.repr c.length) ++ [0] ++ c)
    ∧ ((createObject k c s).1).length = 20
    ∧ (createObject k c s).1 = (createObject k c t).1
    ∧ ascii ("blob") ++ [32] ++ ascii (Nat.repr (ascii ("abc")).length) ++ [0] ++ ascii ("abc")
        = ascii ("blob 3") ++ [0] ++ ascii ("abc")
    ∧ (createObject ("blob") (ascii ("abc")) store0).1 =
        [242, 186, 143, 132, 171, 92, 27, 206, 132, 167, 180, 65, 203, 25, 89, 207, 199, 9, 59, 127] := by
  exact ⟨rfl, sha1_length _, rfl, by decide, by decide⟩

/-- Witness for C1 at kind `blob`, content `"abc"`. -/
theorem createObject_payload_and_digest_witness :
    ("blob" = "blob" ∨ "blob" = "tree" ∨ "blob" = "commit")
    ∧ ((createObject ("blob") (ascii ("abc")) store0).1 =
        sha1 (ascii ("blob") ++ [32] ++ ascii (Nat.repr (ascii ("abc")).length) ++ [0] ++ ascii ("abc"))
      ∧ ((createObject ("blob") (ascii ("abc")) store0).1).length = 20
      ∧ (createObject ("blob") (ascii ("abc")) store0).1 = (createObject ("blob") (ascii ("abc")) store0).1
      ∧ ascii ("blob") ++ [32] ++ ascii (Nat.repr (ascii ("abc")).length) ++ [0] ++ ascii ("abc")
          = ascii ("blob 3") ++ [0] ++ ascii ("abc")
      ∧ (createObject ("blob") (ascii ("abc")) store0).1 =
          [242, 186, 143, 132, 171, 92, 27, 206, 132, 167, 180, 65, 203, 25, 89, 207, 199, 9, 59, 127]) :=
  ⟨Or.inl rfl,
   createObject_payload_and_digest ("blob") (ascii ("abc")) store0 store0 (Or.inl rfl)⟩

/-! ## C3: decoding a stored byte sequence with no NUL separator -/

/-- Claim C3, divergence witness: feeding the read path a stored object whose
decompressed bytes `"abc"` contain no NUL separator makes `catFile`
panic (`strings.SplitN(content, "\x00", 2)[1]` indexes past the end of a
one-element slice); no `MalformedObject` error exists anywhere in the
code, and neither the declared length nor the kind tag is ever checked. -/
theorem catFile_no_nul_panics :
    catFile ("aaaaaaaaaaaaaaaaaaaaaaaaaaaaaaaaaaaaaaaa")
      ⟨[(objectPathOfHex ("aaaaaaaaaaaaaaaaaaaaaaaaaaaaaaaaaaaaaaaa"),
         compressContent (ascii ("abc")))], []⟩
    = CatResult.panicked := by
  decide

/-! ## C4: idempotence of `put` and the unconditional write -/

/-- Claim C4, counterexample: with the object already present in the store, the
claim's "the write is skipped rather than performed again" is false —
`writeObject` unconditionally calls `os.WriteFile`, so the write log
grows. -/
theorem writeObject_counterexample_not_skipped :
    (storeGet (objectPath (sha1 []))
        (Store.mk [(objectPath (sha1 []), compressContent [])] []).files).isSome = true
    ∧ ¬ ((writeObject (sha1 []) (compressContent [])
          (Store.mk [(objectPath (sha1 []), compressContent [])] [])).writeLog
        = (Store.mk [(objectPath (sha1 []), compressContent [])] []).writeLog) := by
  decide

/-- Claim C4, amended: calling `put(id, bytes)` twice leaves the same stored
files as calling it once — the second call overwrites the object with
identical bytes — but the write is performed unconditionally (one
`os.WriteFile` per call, existing or not), not skipped. -/
theorem writeObject_idempotent_files (h c : List Nat) (s : Store) :
    (writeObject h c (writeObject h c s)).files = (writeObject h c s).files
    ∧ (writeObject h c s).writeLog = s.writeLog ++ [objectPath h] := by
  exact ⟨storeSet_set_self (objectPath h) c s.files, rfl⟩

/-! ## C8 and C9: the commit builder -/

/-- Claim C8: the commit content is the `tree` line, the `parent` line, the
author and committer lines, a blank line, then the message with a
trailing newline; that content is encoded as a `commit` object
(`"commit <len>\x00"` header), stored at its digest's path, and the
digest is returned. -/
theorem commitTree_content_spec (t p m : List Nat) (s : Store) :
    commitContent t p m =
      ascii ("tree ") ++ t ++ [10] ++ ascii ("parent ") ++ p ++ [10] ++
      ascii ("author ") ++ ascii authorStr ++ [10] ++
      ascii ("committer ") ++ ascii committerStr ++ [10] ++ [10] ++ m ++ [10]
    ∧ (commitTree t p m s).1 =
        sha1 ((ascii ("commit ") ++ decimalBytes (commitContent t p m).length ++ [0]) ++
          commitContent t p m)
    ∧ storeGet (objectPath (commitTree t p m s).1) ((commitTree t p m s).2).files
        = some (compressContent
            ((ascii ("commit ") ++ decimalBytes (commitContent t p m).length ++ [0]) ++
              commitContent t p m)) := by
  refine ⟨by simp [commitContent, List.append_assoc], rfl, ?_⟩
  exact storeGet_set_self _ _ _

/-- Claim C9: with the author and committer lines fixed string constants, the
commit build is a pure function of its three arguments: two invocations
with equal arguments — whatever the ambient clock, environment variables
or prior store state — return the same ObjectID and store byte-identical
commit objects. -/
theorem commitTreeRun_deterministic (e1 e2 : Env) (t p m : List Nat) (s1 s2 : Store) :
    (commitTreeRun e1 t p m s1).1 = (commitTreeRun e2 t p m s2).1
    ∧ storeGet (objectPath (commitTreeRun e1 t p m s1).1) ((commitTreeRun e1 t p m s1).2).files
        = storeGet (objectPath (commitTreeRun e2 t p m s2).1) ((commitTreeRun e2 t p m s2).2).files
    ∧ authorStr = "John Doe <john@example.com> 1631234567 -0700"
    ∧ committerStr = "Jane Smith <jane@example.com> 1631234789 -0700" := by
  refine ⟨rfl, ?_, rfl, rfl⟩
  simp only [commitTreeRun, commitTree, writeObject]
  rw [storeGet_set_self, storeGet_set_self]

/-! ## C5: the compressor and decompressor are exact inverses -/
theorem storedLen_decode (l : Nat) (h : l ≤ 65535) : l % 256 + 256 * (l / 256 % 256) = l := by
  omega

theorem storedBlockHeader_true (n : Nat) :
    storedBlockHeader true n =
      [1, n % 256, n / 256 % 256, 255 - n % 256, 255 - n / 256 % 256] := by
  simp [storedBlockHeader]

theorem inflateGo_final (x tail : List Nat) (fuel : Nat) (hx : x.length ≤ 65535) :
    inflateGo (fuel + 1) (storedBlockHeader true x.length ++ x ++ tail) = some (x, tail) := by
  have hkey : x.length % 256 + 256 * (x.length / 256 % 256) = x.length :=
    storedLen_decode x.length hx
  rw [storedBlockHeader_true]
  simp only [List.cons_append, List.nil_append]
  simp only [inflateGo]
  rw [hkey]
  rw [if_pos ⟨trivial, trivial⟩]
  rw [if_neg (by rw [List.length_append]; omega)]
  rw [if_pos trivial]
  rw [List.take_left, List.drop_left]

theorem deflateGo_length_ge (n : Nat) : ∀ x : List Nat, x.length ≤ (deflateGo n x).length := by
  induction n with
  | zero =>
      intro x
      simp only [deflateGo, storedBlockHeader, List.length_append, List.length_cons,
        List.length_nil]
      omega
  | succ n ih =>
      intro x
      by_cases hx : x.length ≤ 65535
      · simp only [deflateGo, if_pos hx, storedBlockHeader, List.length_append,
          List.length_cons, List.length_nil]
        omega
      · have := ih (x.drop 65535)
        simp only [deflateGo, if_neg hx, List.length_append, List.length_take,
          List.length_drop, storedBlockHeader, List.length_cons, List.length_nil] at *
        omega

theorem inflateGo_deflateGo (n : Nat) :
    ∀ (x tail : List Nat) (fuel : Nat), n < fuel → x.length ≤ n + 65535 →
      inflateGo fuel (deflateGo n x ++ tail) = some (x, tail) := by
  induction n with
  | zero =>
      intro x tail fuel hfuel hx
      obtain ⟨f, rfl⟩ : ∃ f, fuel = f + 1 := ⟨fuel - 1, by omega⟩
      simpa [deflateGo, List.append_assoc] using
        inflateGo_final x tail f (by omega)
  | succ n ih =>
      intro x tail fuel hfuel hx
      obtain ⟨f, rfl⟩ : ∃ f, fuel = f + 1 := ⟨fuel - 1, by omega⟩
      by_cases hsmall : x.length ≤ 65535
      · simpa [deflateGo, if_pos hsmall, List.append_assoc] using
          inflateGo_final x tail f hsmall
      · have htake : (List.take 65535 x).length = 65535 := by
          simp only [List.length_take]
          omega
        have hhdr : storedBlockHeader false 65535 = [0, 255, 255, 0, 0] := by decide
        have hrec := ih (x.drop 65535) tail f (by omega)
          (by simp only [List.length_drop]; omega)
        have h255 : (255 : Nat) + 256 * 255 = 65535 := by norm_num
        simp only [deflateGo, if_neg hsmall, hhdr,
          List.cons_append, List.nil_append, List.append_assoc, inflateGo]
        rw [h255]
        rw [if_pos ⟨trivial, trivial⟩]
        rw [if_neg (by rw [List.length_append, htake]; omega)]
        rw [if_neg (by decide)]
        rw [List.take_left' htake, List.drop_left' htake]
        rw [hrec]
        show some (List.take 65535 x ++ List.drop 65535 x, tail) = some (x, tail)
        rw [List.take_append_drop]

/-- Helper form of the round trip, shared by the store invariant. -/
theorem decompress_compressContent (x : List Nat) :
    decompress (compressContent x) = some x := by
  have hlen : x.length ≤ (deflateGo x.length x).length := deflateGo_length_ge x.length x
  simp only [compressContent, decompress, List.cons_append, List.nil_append]
  rw [inflateGo_deflateGo x.length x (be32 (adler32 x))
    ((deflateGo x.length x ++ be32 (adler32 x)).length)
    (by simp only [List.length_append, be32, List.length_cons, List.length_nil]; omega)
    (by omega)]
  simp

/-- Claim C5: for every byte sequence, including the empty one, decompressing
the compression used on every stored object gives the sequence back. -/
theorem decompress_compress_roundtrip (x : List Nat) :
    decompress (compressContent x) = some x
    ∧ decompress (compressContent []) = some [] :=
  ⟨decompress_compressContent x, decompress_compressContent []⟩

/-! ## C2: order lemmas -/

theorem lexLt_asymm : ∀ a b : List Nat, lexLt a b = true → lexLt b a = false := by
  intro a
  induction a with
  | nil =>
      intro b h
      cases b with
      | nil => simp [lexLt] at h
      | cons y ys => simp [lexLt]
  | cons x xs ih =>
      intro b h
      cases b with
      | nil => simp [lexLt] at h
      | cons y ys =>
          simp only [lexLt, Bool.or_eq_true, Bool.and_eq_true, beq_iff_eq,
            decide_eq_true_eq, Bool.or_eq_false_iff, Bool.and_eq_false_iff,
            decide_eq_false_iff_not, beq_eq_false_iff_ne, ne_eq] at h ⊢
          rcases h with h | ⟨rfl, h⟩
          · exact ⟨by omega, Or.inl (by omega)⟩
          · exact ⟨by omega, Or.inr (ih ys h)⟩

theorem lexLt_connex : ∀ a b : List Nat, lexLt a b = false → lexLt b a = false → a = b := by
  intro a
  induction a with
  | nil =>
      intro b h1 _
      cases b with
      | nil => rfl
      | cons y ys => simp [lexLt] at h1
  | cons x xs ih =>
      intro b h1 h2
      cases b with
      | nil => simp [lexLt] at h2
      | cons y ys =>
          simp only [lexLt, Bool.or_eq_false_iff, Bool.and_eq_false_iff,
            decide_eq_false_iff_not, beq_eq_false_iff_ne, ne_eq] at h1 h2
          have hxy : x = y := by omega
          subst hxy
          rcases h1.2 with h | h
          · omega
          · rcases h2.2 with h' | h'
            · omega
            · rw [ih ys h h']

theorem lexLt_trans : ∀ a b c : List Nat, lexLt a b = true → lexLt b c = true → lexLt a c = true := by
  intro a
  induction a with
  | nil =>
      intro b c h1 h2
      cases b with
      | nil => simp [lexLt] at h1
      | cons y ys =>
          cases c with
          | nil => simp [lexLt] at h2
          | cons z zs => simp [lexLt]
  | cons x xs ih =>
      intro b c h1 h2
      cases b with
      | nil => simp [lexLt] at h1
      | cons y ys =>
          cases c with
          | nil => simp [lexLt] at h2
          | cons z zs =>
              simp only [lexLt, Bool.or_eq_true, Bool.and_eq_true, beq_iff_eq,
                decide_eq_true_eq] at h1 h2 ⊢
              rcases h1 with h1 | ⟨rfl, h1⟩
              · rcases h2 with h2 | ⟨rfl, h2⟩
                · exact Or.inl (by omega)
                · exact Or.inl h1
              · rcases h2 with h2 | ⟨rfl, h2⟩
                · exact Or.inl h2
                · exact Or.inr ⟨rfl, ih ys zs h1 h2⟩

theorem lexLt_false_trans (a b c : List Nat) (h1 : lexLt b a = false) (h2 : lexLt c b = false) :
    lexLt c a = false := by
  by_cases hca : lexLt c a = true
  · by_cases hbc : lexLt b c = true
    · have := lexLt_trans b c a hbc hca
      rw [this] at h1
      exact absurd h1 (by simp)
    · have hb : b = c := lexLt_connex b c (by
        cases h : lexLt b c
        · rfl
        · exact absurd h hbc) h2
      subst hb
      rw [hca] at h1
      exact absurd h1 (by simp)
  · cases h : lexLt c a
    · rfl
    · exact absurd h hca

theorem leName_total (a b : List Nat × FSNode) (h : leName a b = false) : leName b a = true := by
  simp only [leName] at h ⊢
  simp at h ⊢
  exact lexLt_asymm b.1 a.1 h

theorem leName_trans (a b c : List Nat × FSNode)
    (h1 : leName a b = true) (h2 : leName b c = true) : leName a c = true := by
  simp only [leName] at h1 h2 ⊢
  simp at h1 h2 ⊢
  exact lexLt_false_trans a.1 b.1 c.1 h1 h2

theorem leName_antisymm_fst (a b : List Nat × FSNode)
    (h1 : leName a b = true) (h2 : leName b a = true) : a.1 = b.1 := by
  simp only [leName] at h1 h2
  simp at h1 h2
  exact lexLt_connex a.1 b.1 h2 h1

theorem insertLe_perm (le : (List Nat × FSNode) → (List Nat × FSNode) → Bool)
    (a : List Nat × FSNode) :
    ∀ l : List (List Nat × FSNode), (insertLe le a l).Perm (a :: l) := by
  intro l
  induction l with
  | nil => exact List.Perm.refl _
  | cons b bs ih =>
      simp only [insertLe]
      by_cases h : le a b = true
      · rw [if_pos h]
      · rw [if_neg h]
        exact (List.Perm.cons b ih).trans (List.Perm.swap a b bs)

theorem isort_perm (le : (List Nat × FSNode) → (List Nat × FSNode) → Bool) :
    ∀ l : List (List Nat × FSNode), (isort le l).Perm l := by
  intro l
  induction l with
  | nil => exact List.Perm.refl _
  | cons a as ih =>
      exact (insertLe_perm le a (isort le as)).trans (List.Perm.cons a ih)

theorem insertLe_sorted (le : (List Nat × FSNode) → (List Nat × FSNode) → Bool)
    (htot : ∀ a b, le a b = false → le b a = true)
    (htrans : ∀ a b c, le a b = true → le b c = true → le a c = true)
    (a : List Nat × FSNode) :
    ∀ l : List (List Nat × FSNode), l.Pairwise (fun u v => le u v = true) →
      (insertLe le a l).Pairwise (fun u v => le u v = true) := by
  intro l
  induction l with
  | nil => intro _; simp [insertLe]
  | cons b bs ih =>
      intro hs
      rw [List.pairwise_cons] at hs
      simp only [insertLe]
      by_cases h : le a b = true
      · rw [if_pos h]
        rw [List.pairwise_cons]
        refine ⟨?_, List.pairwise_cons.mpr hs⟩
        intro x hx
        rcases List.mem_cons.mp hx with rfl | hx
        · exact h
        · exact htrans a b x h (hs.1 x hx)
      · rw [if_neg h]
        rw [List.pairwise_cons]
        refine ⟨?_, ih hs.2⟩
        intro x hx
        have hx' : x ∈ a :: bs := (insertLe_perm le a bs).subset hx
        rcases List.mem_cons.mp hx' with hxa | hx'
        · rw [hxa]
          exact htot a b (by
            cases hab : le a b
            · rfl
            · exact absurd hab h)
        · exact hs.1 x hx'

theorem isort_sorted (le : (List Nat × FSNode) → (List Nat × FSNode) → Bool)
    (htot : ∀ a b, le a b = false → le b a = true)
    (htrans : ∀ a b c, le a b = true → le b c = true → le a c = true) :
    ∀ l : List (List Nat × FSNode),
      (isort le l).Pairwise (fun u v => le u v = true) := by
  intro l
  induction l with
  | nil => simp [isort]
  | cons a as ih => exact insertLe_sorted le htot htrans a (isort le as) ih

theorem sorted_nodup_perm_eq :
    ∀ l1 l2 : List (List Nat × FSNode), l1.Perm l2 →
      l1.Pairwise (fun u v => leName u v = true) →
      l2.Pairwise (fun u v => leName u v = true) →
      (l1.map Prod.fst).Nodup → l1 = l2 := by
  intro l1
  induction l1 with
  | nil =>
      intro l2 hp _ _ _
      exact hp.nil_eq
  | cons a t1 ih =>
      intro l2 hp h1 h2 hnd
      cases l2 with
      | nil => exact absurd hp.symm.nil_eq (by simp)
      | cons b t2 =>
          rw [List.pairwise_cons] at h1 h2
          have hab : a = b := by
            have hbmem : b ∈ a :: t1 := hp.symm.subset (List.mem_cons_self b t2)
            rcases List.mem_cons.mp hbmem with rfl | hbt
            · rfl
            · have hamem : a ∈ b :: t2 := hp.subset (List.mem_cons_self a t1)
              rcases List.mem_cons.mp hamem with rfl | hat
              · rfl
              · have k1 : leName a b = true := h1.1 b hbt
                have k2 : leName b a = true := h2.1 a hat
                have hkey : a.1 = b.1 := leName_antisymm_fst a b k1 k2
                exfalso
                rw [List.map_cons, List.nodup_cons] at hnd
                exact hnd.1 (hkey ▸ List.mem_map_of_mem Prod.fst hbt)
          subst hab
          rw [List.map_cons, List.nodup_cons] at hnd
          rw [ih t2 hp.cons_inv h1.2 h2.2 hnd.2]

theorem readDirSort_eq_of_perm (l l' : List (List Nat × FSNode))
    (hp : l.Perm l') (hd : (l.map Prod.fst).Nodup) :
    readDirSort l = readDirSort l' := by
  refine sorted_nodup_perm_eq _ _ ?_ ?_ ?_ ?_
  · exact (isort_perm leName l).trans (hp.trans (isort_perm leName l').symm)
  · exact isort_sorted leName leName_total leName_trans l
  · exact isort_sorted leName leName_total leName_trans l'
  · exact ((isort_perm leName l).map Prod.fst).nodup_iff.mpr hd

/-- Claim C2: for sibling listings with pairwise-distinct names, the tree
builder's behaviour (in particular the resulting tree ObjectID) does not
depend on the order in which the directory listing presents the
children: any permutation of the listing yields the same result. -/
theorem createTree_perm_independent (l l' : List (List Nat × FSNode))
    (hp : l.Perm l') (hd : (l.map Prod.fst).Nodup) :
    ∀ fuel s, createTree fuel (some l) s = createTree fuel (some l') s := by
  have hs : sortEntries l = sortEntries l' := by
    unfold sortEntries
    rw [readDirSort_eq_of_perm l l' hp hd]
  intro fuel s
  cases fuel with
  | zero => rfl
  | succ n =>
      simp only [createTree, Option.getD_some]
      rw [hs]

/-- Witness for C2: the two presentation orders of the same two children
build identical results. -/
theorem createTree_perm_independent_witness :
    ([entrySubDir, entryFileA].Perm [entryFileA, entrySubDir])
    ∧ ([entrySubDir, entryFileA].map Prod.fst).Nodup
    ∧ createTree 2 (some [entrySubDir, entryFileA]) store0
        = createTree 2 (some [entryFileA, entrySubDir]) store0 :=
  ⟨List.Perm.swap entryFileA entrySubDir [],
   by decide,
   createTree_perm_independent [entrySubDir, entryFileA] [entryFileA, entrySubDir]
     (List.Perm.swap entryFileA entrySubDir []) (by decide) 2 store0⟩

/-- Claim C6, divergence: building over a directory with an unreadable
subdirectory `sub` does not abort — the ReadDir error is discarded, `sub`
is committed as an empty tree, and the root tree object referencing it is
committed to the store under a valid ObjectID. -/
theorem createTree_unreadable_dir_commits_partial_tree :
    (createTree 2 (some [(ascii ("sub"), FSNode.dir none)]) store0).2
      = some (sha1 (ascii ("tree 30") ++ [0] ++ ascii ("40000 sub") ++ [0] ++
          sha1 (ascii ("tree 0") ++ [0])))
    ∧ storeGet
        (objectPath (sha1 (ascii ("tree 30") ++ [0] ++ ascii ("40000 sub") ++ [0] ++
          sha1 (ascii ("tree 0") ++ [0]))))
        (createTree 2 (some [(ascii ("sub"), FSNode.dir none)]) store0).1.files
      = some (compressContent (ascii ("tree 30") ++ [0] ++ ascii ("40000 sub") ++ [0] ++
          sha1 (ascii ("tree 0") ++ [0]))) := by
  decide

/-! ## C7: structure of built tree objects -/

theorem foldl_treeStep_none
    (f : Option (List (List Nat × FSNode)) → Store → Store × Option (List Nat)) :
    ∀ (es : List (List Nat × FSNode)) (s : Store),
      es.foldl (treeStep f) (s, none) = (s, none) := by
  intro es
  induction es with
  | nil => intro s; rfl
  | cons e es ih => intro s; exact ih s

theorem foldl_treeStep_snd_indep (n : Nat)
    (ihn : ∀ l s1 s2, (createTree n l s1).2 = (createTree n l s2).2) :
    ∀ (es : List (List Nat × FSNode)) (a : List HashedEntry) (s1 s2 : Store),
      (es.foldl (treeStep (createTree n)) (s1, some a)).2
        = (es.foldl (treeStep (createTree n)) (s2, some a)).2 := by
  intro es
  induction es with
  | nil => intro a s1 s2; rfl
  | cons e es ih =>
      intro a s1 s2
      obtain ⟨name, node⟩ := e
      cases node with
      | dir sub =>
          by_cases hg : name = ascii (".git")
          · simp only [List.foldl_cons, treeStep, if_pos hg]
            exact ih a s1 s2
          · simp only [List.foldl_cons, treeStep, if_neg hg]
            have h2 := ihn sub s1 s2
            cases hr1 : (createTree n sub s1).2 with
            | some h =>
                rw [h2] at hr1
                rw [hr1]
                exact ih _ _ _
            | none =>
                rw [h2] at hr1
                rw [hr1]
                rw [foldl_treeStep_none, foldl_treeStep_none]
      | file co =>
          cases co with
          | none =>
              simp only [List.foldl_cons, treeStep]
              rw [foldl_treeStep_none, foldl_treeStep_none]
          | some c =>
              simp only [List.foldl_cons, treeStep]
              exact ih _ _ _

theorem createTree_snd_indep :
    ∀ (n : Nat) (l : Option (List (List Nat × FSNode))) (s1 s2 : Store),
      (createTree n l s1).2 = (createTree n l s2).2 := by
  intro n
  induction n with
  | zero => intro l s1 s2; rfl
  | succ n ihn =>
      intro l s1 s2
      simp only [createTree]
      have hfold := foldl_treeStep_snd_indep n ihn (sortEntries (l.getD [])) [] s1 s2
      cases hr1 : (sortEntries (l.getD [])).foldl (treeStep (createTree n)) (s1, some []) with
      | mk t1 o1 =>
          cases hr2 : (sortEntries (l.getD [])).foldl (treeStep (createTree n)) (s2, some []) with
          | mk t2 o2 =>
              rw [hr1, hr2] at hfold
              simp only at hfold
              subst hfold
              cases o1 with
              | none => rfl
              | some hes => rfl

theorem createTree_hash_length (n : Nat) (l : Option (List (List Nat × FSNode)))
    (s : Store) (h : List Nat) (hr : (createTree n l s).2 = some h) :
    h.length = 20 := by
  cases n with
  | zero => simp [createTree] at hr
  | succ n =>
      simp only [createTree] at hr
      cases hf : (sortEntries (l.getD [])).foldl (treeStep (createTree n)) (s, some []) with
      | mk s1 o =>
          rw [hf] at hr
          cases o with
          | none => simp at hr
          | some hes =>
              simp only at hr
              injection hr with hr
              rw [← hr]
              exact sha1_length _

theorem foldl_append_encode (hes : List HashedEntry) :
    ∀ a0 : List Nat,
      hes.foldl (fun a he => a ++ encodeEntry he) a0 = a0 ++ (hes.map encodeEntry).flatten := by
  induction hes with
  | nil => intro a0; simp
  | cons he hes ih =>
      intro a0
      simp only [List.foldl_cons, List.map_cons, List.flatten_cons, ih, List.append_assoc]

theorem forall₂_mem_right {α β : Type} (R : α → β → Prop) :
    ∀ (l1 : List α) (l2 : List β), List.Forall₂ R l1 l2 → ∀ b ∈ l2, ∃ a ∈ l1, R a b := by
  intro l1
  induction l1 with
  | nil =>
      intro l2 hf b hb
      cases hf
      simp at hb
  | cons a t ih =>
      intro l2 hf b hb
      cases hf with
      | cons hR hrest =>
          rcases List.mem_cons.mp hb with rfl | hb
          · exact ⟨a, List.mem_cons_self a t, hR⟩
          · obtain ⟨x, hx, hxR⟩ := ih _ hrest b hb
            exact ⟨x, List.mem_cons_of_mem a hx, hxR⟩

theorem foldl_treeStep_spec (n : Nat) :
    ∀ (es : List (List Nat × FSNode)) (s : Store) (a : List HashedEntry)
      (s' : Store) (hes : List HashedEntry),
      es.foldl (treeStep (createTree n)) (s, some a) = (s', some hes) →
      ∃ new, hes = a ++ new ∧ List.Forall₂ (entryRel n) (filterGit es) new := by
  intro es
  induction es with
  | nil =>
      intro s a s' hes h
      simp only [List.foldl_nil] at h
      injection h with h1 h2
      injection h2 with h2
      refine ⟨[], by rw [← h2]; simp, ?_⟩
      have : filterGit [] = [] := rfl
      rw [this]
      exact List.Forall₂.nil
  | cons e es ih =>
      intro s a s' hes h
      obtain ⟨name, node⟩ := e
      cases node with
      | dir sub =>
          by_cases hg : name = ascii (".git")
          · rw [List.foldl_cons] at h
            simp only [treeStep, if_pos hg] at h
            obtain ⟨new, hnew, hrel⟩ := ih _ _ _ _ h
            refine ⟨new, hnew, ?_⟩
            have heq : filterGit ((name, FSNode.dir sub) :: es) = filterGit es := by
              simp [filterGit, isGitDir, hg]
            rw [heq]
            exact hrel
          · rw [List.foldl_cons] at h
            simp only [treeStep, if_neg hg] at h
            cases hr : (createTree n sub s).2 with
            | none =>
                rw [hr] at h
                rw [foldl_treeStep_none] at h
                injection h with h1 h2
                cases h2
            | some hh =>
                rw [hr] at h
                obtain ⟨new, hnew, hrel⟩ := ih _ _ _ _ h
                refine ⟨⟨ascii ("40000"), name, hh⟩ :: new, ?_, ?_⟩
                · rw [hnew, List.append_assoc, List.singleton_append]
                · have heq : filterGit ((name, FSNode.dir sub) :: es)
                      = (name, FSNode.dir sub) :: filterGit es := by
                    simp [filterGit, isGitDir, hg]
                  rw [heq]
                  refine List.Forall₂.cons ⟨rfl, rfl, ?_⟩ hrel
                  intro s0
                  rw [createTree_snd_indep n sub s0 s, hr]
      | file co =>
          cases co with
          | none =>
              rw [List.foldl_cons] at h
              simp only [treeStep] at h
              rw [foldl_treeStep_none] at h
              injection h with h1 h2
              cases h2
          | some c =>
              rw [List.foldl_cons] at h
              simp only [treeStep] at h
              obtain ⟨new, hnew, hrel⟩ := ih _ _ _ _ h
              refine ⟨⟨ascii ("100644"), name, (createObject ("blob") c s).1⟩ :: new, ?_, ?_⟩
              · rw [hnew, List.append_assoc, List.singleton_append]
              · have heq : filterGit ((name, FSNode.file (some c)) :: es)
                    = (name, FSNode.file (some c)) :: filterGit es := by
                  simp [filterGit, isGitDir]
                rw [heq]
                exact List.Forall₂.cons ⟨rfl, rfl, c, rfl, rfl⟩ hrel

/-- Claim C7: a successfully built tree object's content is the concatenation,
in the builder's sorted sibling order (`.git` excluded), with no
delimiter, of the encodings `"<mode> <name>\x00<20-byte-digest>"`, where
a subdirectory entry carries mode `40000` and the digest of its
recursively built tree, and a file entry carries mode `100644` and the
digest of its content stored as a blob; the tree payload is hashed and
stored like every object. -/
theorem createTree_content_spec (n : Nat) (l : List (List Nat × FSNode)) (s s' : Store)
    (h : List Nat) (hrun : createTree (n + 1) (some l) s = (s', some h)) :
    ∃ hes : List HashedEntry,
      List.Forall₂ (entryRel n) (filterGit (sortEntries l)) hes
      ∧ h = sha1 (ascii ("tree") ++ [32] ++ decimalBytes ((hes.map encodeEntry).flatten).length
            ++ [0] ++ (hes.map encodeEntry).flatten)
      ∧ storeGet (objectPath h) s'.files
          = some (compressContent (ascii ("tree") ++ [32]
              ++ decimalBytes ((hes.map encodeEntry).flatten).length
              ++ [0] ++ (hes.map encodeEntry).flatten))
      ∧ (∀ he ∈ hes, encodeEntry he = he.mode ++ [32] ++ he.name ++ [0] ++ he.hash
            ∧ he.hash.length = 20) := by
  simp only [createTree, Option.getD_some] at hrun
  cases hf : (sortEntries l).foldl (treeStep (createTree n)) (s, some []) with
  | mk s1 o =>
      rw [hf] at hrun
      cases o with
      | none =>
          injection hrun with h1 h2
          cases h2
      | some hes0 =>
          simp only at hrun
          injection hrun with hs' hh
          injection hh with hh
          obtain ⟨new, hnew, hrel⟩ := foldl_treeStep_spec n (sortEntries l) s [] s1 hes0 hf
          rw [List.nil_append] at hnew
          subst hnew
          have hc : hes0.foldl (fun a he => a ++ encodeEntry he) []
              = (hes0.map encodeEntry).flatten := by
            rw [foldl_append_encode]
            exact List.nil_append _
          refine ⟨hes0, hrel, ?_, ?_, ?_⟩
          · rw [← hh, hc]
            rfl
          · rw [← hh, ← hs']
            simp only [createObject, writeObject]
            rw [storeGet_set_self, hc]
          · intro he hmem
            refine ⟨rfl, ?_⟩
            obtain ⟨src, _, hR⟩ := forall₂_mem_right (entryRel n) _ _ hrel he hmem
            obtain ⟨sname, snode⟩ := src
            cases snode with
            | dir sub =>
                obtain ⟨_, _, hhash⟩ := hR
                exact createTree_hash_length n sub store0 he.hash (hhash store0)
            | file co =>
                obtain ⟨_, _, c, _, hhash⟩ := hR
                rw [hhash]
                exact sha1_length _

/-- Witness for C7: the spec scenario — a directory with one file
`a.txt` (content `"x"`) and one empty subdirectory `sub`. -/
theorem createTree_content_spec_witness :
    ∃ s' h, createTree 2 (some [entryFileA, entrySubDir]) store0 = (s', some h) ∧
      (∃ hes : List HashedEntry,
        List.Forall₂ (entryRel 1) (filterGit (sortEntries [entryFileA, entrySubDir])) hes
        ∧ h = sha1 (ascii ("tree") ++ [32] ++ decimalBytes ((hes.map encodeEntry).flatten).length
              ++ [0] ++ (hes.map encodeEntry).flatten)
        ∧ storeGet (objectPath h) s'.files
            = some (compressContent (ascii ("tree") ++ [32]
                ++ decimalBytes ((hes.map encodeEntry).flatten).length
                ++ [0] ++ (hes.map encodeEntry).flatten))
        ∧ (∀ he ∈ hes, encodeEntry he = he.mode ++ [32] ++ he.name ++ [0] ++ he.hash
              ∧ he.hash.length = 20)) := by
  refine ⟨_, _, rfl, ?_⟩
  exact createTree_content_spec 1 [entryFileA, entrySubDir] store0 _ _ rfl

/-! ## C10: the store key always matches the content it addresses -/

theorem storeInv_writeObject (payload : List Nat) (s : Store) (hs : StoreInv s) :
    StoreInv (writeObject (sha1 payload) (compressContent payload) s) := by
  intro p v hmem
  simp only [writeObject, storeSet] at hmem
  rcases List.mem_cons.mp hmem with heq | hmem'
  · injection heq with hp hv
    subst hp
    subst hv
    exact ⟨payload, rfl, rfl, decompress_compressContent payload⟩
  · exact hs p v (List.mem_of_mem_eraseP hmem')

theorem storeInv_createObject (ty : String) (c : List Nat) (s : Store) (hs : StoreInv s) :
    StoreInv ((createObject ty c s).2) :=
  storeInv_writeObject (ascii ty ++ [32] ++ decimalBytes c.length ++ [0] ++ c) s hs

theorem storeInv_foldl (n : Nat)
    (ihn : ∀ l s, StoreInv s → StoreInv ((createTree n l s).1)) :
    ∀ (es : List (List Nat × FSNode)) (acc : Store × Option (List HashedEntry)),
      StoreInv acc.1 → StoreInv ((es.foldl (treeStep (createTree n)) acc).1) := by
  intro es
  induction es with
  | nil => intro acc h; exact h
  | cons e es ih =>
      intro acc hacc
      rw [List.foldl_cons]
      apply ih
      obtain ⟨s, o⟩ := acc
      cases o with
      | none => exact hacc
      | some hes =>
          obtain ⟨name, node⟩ := e
          cases node with
          | dir sub =>
              by_cases hg : name = ascii (".git")
              · simp only [treeStep, if_pos hg]
                exact hacc
              · simp only [treeStep, if_neg hg]
                cases hr : (createTree n sub s).2 with
                | some hh => exact ihn sub s hacc
                | none => exact ihn sub s hacc
          | file co =>
              cases co with
              | none => exact hacc
              | some c => exact storeInv_createObject ("blob") c s hacc

theorem storeInv_createTree :
    ∀ (n : Nat) (l : Option (List (List Nat × FSNode))) (s : Store),
      StoreInv s → StoreInv ((createTree n l s).1) := by
  intro n
  induction n with
  | zero => intro l s h; exact h
  | succ n ihn =>
      intro l s hs
      simp only [createTree]
      cases hf : (sortEntries (l.getD [])).foldl (treeStep (createTree n)) (s, some []) with
      | mk s1 o =>
          have h1 : StoreInv s1 := by
            have hh := storeInv_foldl n ihn (sortEntries (l.getD [])) (s, some []) hs
            rw [hf] at hh
            exact hh
          cases o with
          | none => exact h1
          | some hes => exact storeInv_createObject ("tree") _ s1 h1

theorem storeInv_commitTree (t p m : List Nat) (s : Store) (hs : StoreInv s) :
    StoreInv ((commitTree t p m s).2) :=
  storeInv_writeObject
    ((ascii ("commit ") ++ decimalBytes (commitContent t p m).length ++ [0]) ++
      commitContent t p m) s hs

/-- Claim C10: every object-writing command preserves the content-addressing
invariant — every file in the store lives at
`objects/<2 hex>/<38 hex>` of the SHA-1 of the payload whose compression
is the file's content, so decompressing a stored file and hashing the
result reproduces the id its path encodes. -/
theorem runCmd_store_invariant (cmd : Cmd) (s : Store) (hs : StoreInv s) :
    StoreInv (runCmd cmd s)
    ∧ ∀ p v, (p, v) ∈ (runCmd cmd s).files →
        ∃ payload, decompress v = some payload ∧ p = objectPath (sha1 payload) := by
  have hinv : StoreInv (runCmd cmd s) := by
    cases cmd with
    | hashObjectCmd c => exact storeInv_createObject ("blob") c s hs
    | writeTreeCmd fuel root => exact storeInv_createTree fuel root s hs
    | commitTreeCmd t p m => exact storeInv_commitTree t p m s hs
  refine ⟨hinv, ?_⟩
  intro p v hmem
  obtain ⟨payload, _, hp, hd⟩ := hinv p v hmem
  exact ⟨payload, hd, hp⟩

/-- Witness for C10: the empty store satisfies the invariant, and running
`hash-object` on it preserves it. -/
theorem runCmd_store_invariant_witness :
    StoreInv store0
    ∧ (StoreInv (runCmd (Cmd.hashObjectCmd (ascii ("hi"))) store0)
      ∧ ∀ p v, (p, v) ∈ (runCmd (Cmd.hashObjectCmd (ascii ("hi"))) store0).files →
          ∃ payload, decompress v = some payload ∧ p = objectPath (sha1 payload)) :=
  ⟨fun _ _ h => absurd h (List.not_mem_nil _),
   runCmd_store_invariant (Cmd.hashObjectCmd (ascii ("hi"))) store0
     (fun _ _ h => absurd h (List.not_mem_nil _))⟩
